import Mathlib

/-!
Verification of the Walk-Score graph-reduction repository (`graph.py`,
`main.py`).

The program keeps a directed graph as two mirrored Python dicts
(`outedges` : node → list of successors, `inedges` : node → list of
predecessors).  A Python dict is modelled as an association list in
insertion order (`EdgeMap`); dict lookup / assignment / `pop` act on the
first occurrence of a key, which coincides with dict semantics because a
dict never holds a duplicate key.

Python exceptions are modelled explicitly: `KeyError` in edge deletion by
`Except`/`Option` failure, the `assert` in `add_directed_edge` by an
`Option`, `ValueError` in `from_file` by a dedicated result constructor.
The `while` worklist loop of `reduce_graph` is modelled with explicit fuel;
`reduce_graph` supplies a fuel bound proved sufficient below, so running
out of fuel (`RunRes.outOfFuel`) never actually happens.
-/

/-- Node identifiers are Python strings. -/
abbrev Node := String

/-- A Python dict from node id to edge list, as an insertion-ordered
association list. -/
abbrev EdgeMap := List (Node × List Node)

/-- Dict lookup `edgemap[k]`: first entry with key `k`, if any. -/
def lookupEM (m : EdgeMap) (k : Node) : Option (List Node) :=
  match m with
  | [] => none
  | (k', v) :: rest => if k' = k then some v else lookupEM rest k

/-- Edge list of `k`, with a missing key read as the empty list (the
`try ... except KeyError: edgelist = []` pattern of the source). -/
def lookupList (m : EdgeMap) (k : Node) : List Node :=
  (lookupEM m k).getD []

/-- Dict assignment `edgemap[k] = v` for a key already present: replace the
value of the first entry with key `k`. -/
def updateEM (m : EdgeMap) (k : Node) (v : List Node) : EdgeMap :=
  match m with
  | [] => []
  | (k', v') :: rest =>
    if k' = k then (k', v) :: rest else (k', v') :: updateEM rest k v

/-- Dict removal `edgemap.pop(k)`: drop the first entry with key `k`. -/
def removeEM (m : EdgeMap) (k : Node) : EdgeMap :=
  match m with
  | [] => []
  | (k', v') :: rest => if k' = k then rest else (k', v') :: removeEM rest k

/-- Total number of edges recorded in a map (sum of edge-list lengths). -/
def outCount (m : EdgeMap) : Nat :=
  (m.map (fun p => p.2.length)).sum

/-- `Graph._add_edge(edgemap, start, end)`: insert `end` into the edge list
of `start`, creating the entry if missing; report (as `true`) whether the
edge was already present.  Mirrors the source exactly: a missing key first
gets an empty list appended at dict end, then `end` is appended to it. -/
def addEdgeM (m : EdgeMap) (s e : Node) : Bool × EdgeMap :=
  match lookupEM m s with
  | none => (false, m ++ [(s, [e])])
  | some l => if e ∈ l then (true, m) else (false, updateEM m s (l ++ [e]))

/-- `Graph._del_edge(edgemap, start, end)`: remove the first occurrence of
`end` from the edge list of `start` (`list.index` + `pop`), dropping the
key when its list becomes empty; `none` models the raised `KeyError`. -/
def delEdgeM (m : EdgeMap) (s e : Node) : Option EdgeMap :=
  let l := lookupList m s
  if e ∈ l then
    let l2 := l.erase e
    some (if l2 = [] then removeEM m s else updateEM m s l2)
  else
    none

/-- The two mirrored edge maps of class `Graph`. -/
structure Graph where
  outedges : EdgeMap
  inedges : EdgeMap
deriving DecidableEq, Repr

/-- `Graph.add_directed_edge(start, end)`: add the edge in both maps and
return the already-existed flag (source returns 1/0, modelled as a `Bool`).
The result is `none` when `assert(exists_out == exists_in)` fails
(Python `AssertionError`). -/
def add_directed_edge (g : Graph) (s e : Node) : Option (Bool × Graph) :=
  let exists_out := (addEdgeM g.outedges s e).1
  let exists_in := (addEdgeM g.inedges e s).1
  if exists_out = exists_in then
    some (exists_out, ⟨(addEdgeM g.outedges s e).2, (addEdgeM g.inedges e s).2⟩)
  else
    none

/-- `Graph.del_directed_edge(start, end)`: delete the edge on the out side,
then on the in side.  `Except.error` models the propagated `KeyError` and
carries the state the object is left in: the source mutates `outedges`
before touching `inedges`, so a failure on the in side leaves the already
mutated out map behind. -/
def del_directed_edge (g : Graph) (s e : Node) : Except Graph Graph :=
  match delEdgeM g.outedges s e with
  | none => .error g
  | some out' =>
    match delEdgeM g.inedges e s with
    | none => .error ⟨out', g.inedges⟩
    | some in' => .ok ⟨out', in'⟩

/-- The directed edge `a → b` is present (membership in the forward map). -/
def edgeMem (g : Graph) (a b : Node) : Prop :=
  b ∈ lookupList g.outedges a

instance (g : Graph) (a b : Node) : Decidable (edgeMem g a b) := by
  unfold edgeMem; infer_instance

/-- The elimination predicate of `reduce_graph`: exactly one outgoing and
one incoming edge, a missing key counting as zero. -/
def passThrough (g : Graph) (n : Node) : Prop :=
  (lookupList g.outedges n).length = 1 ∧ (lookupList g.inedges n).length = 1

instance (g : Graph) (n : Node) : Decidable (passThrough g n) := by
  unfold passThrough; infer_instance

/-- Well-formedness of a graph state: the dict encoding has no duplicate
keys, plus the spec invariants I1 (mirror consistency), I2 (no duplicates
inside an edge list) and I3 (no entry holds an empty list). -/
structure WF (g : Graph) : Prop where
  keysND_out : (g.outedges.map Prod.fst).Nodup
  keysND_in : (g.inedges.map Prod.fst).Nodup
  mirror : ∀ a b, b ∈ lookupList g.outedges a ↔ a ∈ lookupList g.inedges b
  nd_out : ∀ k, (lookupList g.outedges k).Nodup
  nd_in : ∀ k, (lookupList g.inedges k).Nodup
  ne_out : ∀ k l, lookupEM g.outedges k = some l → l ≠ []
  ne_in : ∀ k l, lookupEM g.inedges k = some l → l ≠ []

/-- Result of running the reduction loop. -/
inductive RunRes where
  /-- `reduce_graph` returned normally with this final state. -/
  | done (g : Graph)
  /-- an uncaught exception (`KeyError` or `AssertionError`) aborted it. -/
  | error
  /-- artifact of the fuelled model: the fuel ran out. -/
  | outOfFuel
deriving DecidableEq, Repr

/-- One iteration of the worklist body of `reduce_graph` on the popped
`node`: `none` models an uncaught exception; otherwise the new state and
the list of nodes appended to the candidate queue. -/
def reduceStep (g : Graph) (node : Node) : Option (Graph × List Node) :=
  let outl := lookupList g.outedges node
  let inl := lookupList g.inedges node
  if outl.length = 1 ∧ inl.length = 1 then
    let nbr_in := inl.headD ""
    let nbr_out := outl.headD ""
    match del_directed_edge g nbr_in node with
    | .error _ => none
    | .ok g1 =>
      if node = nbr_out then
        -- isolated self-cycle: nothing further is deleted or added
        some (g1, [])
      else
        match del_directed_edge g1 node nbr_out with
        | .error _ => none
        | .ok g2 =>
          match add_directed_edge g2 nbr_in nbr_out with
          | none => none
          | some (already, g3) =>
            if already then some (g3, [nbr_in, nbr_out]) else some (g3, [])
  else
    some (g, [])

/-- The `while len(candidates) > 0` loop of `reduce_graph`, with fuel. -/
def reduceLoop : Nat → Graph → List Node → RunRes
  | 0, _, _ => .outOfFuel
  | _ + 1, g, [] => .done g
  | fuel + 1, g, node :: rest =>
    match reduceStep g node with
    | none => .error
    | some (g2, extra) => reduceLoop fuel g2 (rest ++ extra)

/-- Initial candidate queue: the keys of the forward map, in dict order
(`deque(self.outedges.keys())`). -/
def graphKeys (g : Graph) : List Node :=
  g.outedges.map Prod.fst

/-- Fuel bound under which the loop is proved below never to run out. -/
def graphMeasure (g : Graph) (cands : List Node) : Nat :=
  cands.length + 3 * outCount g.outedges

/-- `Graph.reduce_graph()`. -/
def reduce_graph (g : Graph) : RunRes :=
  reduceLoop (graphMeasure g (graphKeys g) + 1) g (graphKeys g)

/-- The source's documented assumption on `\w`: one alphanumeric character
or underscore (`EDGE_RE`). -/
def isWordChar (c : Char) : Bool :=
  c.isAlphanum || c = '_'

/-- Split a line on tab characters (the structure `EDGE_RE` keys on). -/
def splitTab : List Char → List (List Char)
  | [] => [[]]
  | c :: rest =>
    match splitTab rest with
    | [] => [[]]
    | l :: ls => if c = '\t' then [] :: l :: ls else (c :: l) :: ls

/-- `EDGE_RE.match(line)`: the line must be exactly
`<word-chars>\t<word-chars>` with both groups non-empty. -/
def parseLine (line : List Char) : Option (Node × Node) :=
  match splitTab line with
  | [s, e] =>
    if s ≠ [] ∧ e ≠ [] ∧ s.all isWordChar ∧ e.all isWordChar then
      some (⟨s⟩, ⟨e⟩)
    else
      none
  | _ => none

/-- Result of `Graph.from_file`. -/
inductive LoadResult where
  /-- all lines parsed and were added. -/
  | done (g : Graph)
  /-- `ValueError("invalid input line ...")` was raised. -/
  | invalidLine
  /-- the `assert` inside `add_directed_edge` failed. -/
  | assertFail
deriving DecidableEq, Repr

/-- The `readline` loop of `Graph.from_file`, acting on a list of input
lines (each without its trailing newline, which `EDGE_RE`'s `$` skips). -/
def loadLoop : Graph → List (List Char) → LoadResult
  | g, [] => .done g
  | g, line :: rest =>
    match parseLine line with
    | none => .invalidLine
    | some (s, e) =>
      match add_directed_edge g s e with
      | none => .assertFail
      | some (_, g') => loadLoop g' rest

/-- `Graph.from_file(infile)`: reset both maps, then add every parsed
line. -/
def from_file (lines : List (List Char)) : LoadResult :=
  loadLoop ⟨[], []⟩ lines

/-- `Graph.to_file(outfile)`: one `start\tend` line per outgoing edge, in
map order. -/
def to_file (g : Graph) : List (List Char) :=
  g.outedges.flatMap (fun p => p.2.map (fun e => p.1.data ++ '\t' :: e.data))

/-- The pipeline of `main.py`: load, reduce, emit; `none` when any phase
raises (the process then exits non-zero with no output). -/
def main_run (lines : List (List Char)) : Option (List (List Char)) :=
  match from_file lines with
  | .done g =>
    match reduce_graph g with
    | .done g' => some (to_file g')
    | _ => none
  | _ => none

/-- A node id as the source's documented assumption describes it: one or
more word characters. -/
def validId (s : Node) : Prop :=
  s.data ≠ [] ∧ ∀ c ∈ s.data, isWordChar c

instance : DecidablePred validId := by
  unfold validId; infer_instance

/-- The edge set of a graph, read edge by edge out of the forward map
(exactly the pairs `to_file` prints). -/
def pairsOf (g : Graph) : List (Node × Node) :=
  g.outedges.flatMap (fun p => p.2.map (fun e => (p.1, e)))

/-- An executable sufficient condition for `WF`, quantifying only over the
entries actually stored in the two maps. -/
def WFcheck (g : Graph) : Prop :=
  (g.outedges.map Prod.fst).Nodup ∧ (g.inedges.map Prod.fst).Nodup ∧
  (∀ p ∈ g.outedges, ∀ b ∈ p.2, p.1 ∈ lookupList g.inedges b) ∧
  (∀ p ∈ g.inedges, ∀ a ∈ p.2, p.1 ∈ lookupList g.outedges a) ∧
  (∀ p ∈ g.outedges, p.2.Nodup) ∧ (∀ p ∈ g.inedges, p.2.Nodup) ∧
  (∀ p ∈ g.outedges, p.2 ≠ []) ∧ (∀ p ∈ g.inedges, p.2 ≠ [])

instance : DecidablePred WFcheck := by
  unfold WFcheck; infer_instance

example : main_run [['A', '\t', 'B'], ['B', '\t', 'C']] =
    some [['A', '\t', 'C']] := by decide

example : main_run [['A', '\t', 'B'], ['B', '\t', 'A']] = some [] := by decide

example : main_run [['A', '\t', 'A']] = some [] := by decide

example : main_run [['A', ' ', 'B']] = none := by decide

/-! ### Dict (association list) lemmas -/

theorem lookupEM_eq_none_iff (m : EdgeMap) (k : Node) :
    lookupEM m k = none ↔ k ∉ m.map Prod.fst := by
  induction m with
  | nil => simp [lookupEM]
  | cons p rest ih =>
    obtain ⟨k', v⟩ := p
    by_cases h : k' = k <;> simp [lookupEM, h, ih, Ne.symm]

theorem lookupEM_mem {m : EdgeMap} {k : Node} {l : List Node}
    (h : lookupEM m k = some l) : (k, l) ∈ m := by
  induction m with
  | nil => simp [lookupEM] at h
  | cons p rest ih =>
    obtain ⟨k', v⟩ := p
    by_cases hk : k' = k
    · subst hk
      simp [lookupEM] at h
      simp [h]
    · simp [lookupEM, hk] at h
      exact List.mem_cons_of_mem _ (ih h)

theorem mem_keys_of_lookupEM {m : EdgeMap} {k : Node} {l : List Node}
    (h : lookupEM m k = some l) : k ∈ m.map Prod.fst := by
  have := lookupEM_mem h
  exact List.mem_map_of_mem Prod.fst this

theorem lookupEM_of_keysND_mem {m : EdgeMap} {k : Node} {l : List Node}
    (hnd : (m.map Prod.fst).Nodup) (h : (k, l) ∈ m) :
    lookupEM m k = some l := by
  induction m with
  | nil => simp at h
  | cons p rest ih =>
    obtain ⟨k', v⟩ := p
    rw [List.map_cons, List.nodup_cons] at hnd
    rcases List.mem_cons.mp h with h1 | h1
    · injection h1 with hk hv
      subst hk
      subst hv
      simp [lookupEM]
    · have hkmem : k ∈ rest.map Prod.fst := List.mem_map_of_mem Prod.fst h1
      have hkne : k' ≠ k := fun hc => hnd.1 (hc ▸ hkmem)
      simp only [lookupEM, if_neg hkne]
      exact ih hnd.2 h1

theorem lookupEM_eq_some_of_mem_lookupList {m : EdgeMap} {k a : Node}
    (h : a ∈ lookupList m k) : lookupEM m k = some (lookupList m k) := by
  unfold lookupList at *
  cases hm : lookupEM m k with
  | none => simp [hm] at h
  | some l => simp [hm]

theorem updateEM_keys (m : EdgeMap) (k : Node) (v : List Node) :
    (updateEM m k v).map Prod.fst = m.map Prod.fst := by
  induction m with
  | nil => rfl
  | cons p rest ih =>
    obtain ⟨k', v'⟩ := p
    by_cases h : k' = k <;> simp [updateEM, h, ih]

theorem lookupEM_updateEM_self {m : EdgeMap} {k : Node} {l : List Node}
    (h : lookupEM m k = some l) (v : List Node) :
    lookupEM (updateEM m k v) k = some v := by
  induction m with
  | nil => simp [lookupEM] at h
  | cons p rest ih =>
    obtain ⟨k', v'⟩ := p
    by_cases hk : k' = k
    · simp [updateEM, hk, lookupEM]
    · simp [updateEM, hk, lookupEM] at *
      exact ih h

theorem lookupEM_updateEM_ne {k k' : Node} (m : EdgeMap) (v : List Node)
    (h : k' ≠ k) : lookupEM (updateEM m k v) k' = lookupEM m k' := by
  induction m with
  | nil => rfl
  | cons p rest ih =>
    obtain ⟨k'', v'⟩ := p
    by_cases hk : k'' = k
    · subst hk
      simp [updateEM, lookupEM, Ne.symm h]
    · simp [updateEM, hk, lookupEM]
      by_cases hk2 : k'' = k' <;> simp [hk2, ih]

theorem outCount_updateEM {m : EdgeMap} {k : Node} {l : List Node}
    (h : lookupEM m k = some l) (v : List Node) :
    outCount (updateEM m k v) + l.length = outCount m + v.length := by
  induction m with
  | nil => simp [lookupEM] at h
  | cons p rest ih =>
    obtain ⟨k', v'⟩ := p
    by_cases hk : k' = k
    · simp [lookupEM, hk] at h
      subst h
      simp [updateEM, hk, outCount]
      omega
    · simp [lookupEM, hk] at h
      have := ih h
      simp [updateEM, hk, outCount] at *
      omega

theorem removeEM_keys_sublist (m : EdgeMap) (k : Node) :
    ((removeEM m k).map Prod.fst).Sublist (m.map Prod.fst) := by
  induction m with
  | nil => simp [removeEM]
  | cons p rest ih =>
    obtain ⟨k', v'⟩ := p
    by_cases hk : k' = k
    · simp only [removeEM, if_pos hk, List.map_cons]
      exact List.sublist_cons_self _ _
    · simp only [removeEM, if_neg hk, List.map_cons]
      exact ih.cons₂ _

theorem lookupEM_removeEM_self {m : EdgeMap} {k : Node}
    (hnd : (m.map Prod.fst).Nodup) : lookupEM (removeEM m k) k = none := by
  induction m with
  | nil => rfl
  | cons p rest ih =>
    obtain ⟨k', v'⟩ := p
    rw [List.map_cons, List.nodup_cons] at hnd
    by_cases hk : k' = k
    · subst hk
      simp only [removeEM, if_pos rfl]
      rw [lookupEM_eq_none_iff]
      exact hnd.1
    · simp only [removeEM, if_neg hk, lookupEM, if_neg hk]
      exact ih hnd.2

theorem lookupEM_removeEM_ne {k k' : Node} (m : EdgeMap)
    (h : k' ≠ k) : lookupEM (removeEM m k) k' = lookupEM m k' := by
  induction m with
  | nil => rfl
  | cons p rest ih =>
    obtain ⟨k'', v'⟩ := p
    by_cases hk : k'' = k
    · subst hk
      simp [removeEM, lookupEM, Ne.symm h]
    · simp [removeEM, hk, lookupEM]
      by_cases hk2 : k'' = k' <;> simp [hk2, ih]

theorem outCount_removeEM {m : EdgeMap} {k : Node} {l : List Node}
    (h : lookupEM m k = some l) :
    outCount (removeEM m k) + l.length = outCount m := by
  induction m with
  | nil => simp [lookupEM] at h
  | cons p rest ih =>
    obtain ⟨k', v'⟩ := p
    by_cases hk : k' = k
    · simp [lookupEM, hk] at h
      subst h
      simp [removeEM, hk, outCount]
      omega
    · simp [lookupEM, hk] at h
      have := ih h
      simp [removeEM, hk, outCount] at *
      omega

theorem lookupEM_append_self {m : EdgeMap} {s : Node}
    (h : lookupEM m s = none) (l : List Node) :
    lookupEM (m ++ [(s, l)]) s = some l := by
  induction m with
  | nil => simp [lookupEM]
  | cons p rest ih =>
    obtain ⟨k', v'⟩ := p
    by_cases hk : k' = s
    · simp [lookupEM, hk] at h
    · simp [lookupEM, hk] at *
      exact ih h

theorem lookupEM_append_ne {k s : Node} (m : EdgeMap) (l : List Node)
    (h : k ≠ s) : lookupEM (m ++ [(s, l)]) k = lookupEM m k := by
  induction m with
  | nil => simp [lookupEM, Ne.symm h]
  | cons p rest ih =>
    obtain ⟨k', v'⟩ := p
    by_cases hk : k' = k <;> simp [lookupEM, hk, ih]

theorem outCount_append (m : EdgeMap) (s : Node) (l : List Node) :
    outCount (m ++ [(s, l)]) = outCount m + l.length := by
  simp [outCount]

theorem keys_append (m : EdgeMap) (s : Node) (l : List Node) :
    (m ++ [(s, l)]).map Prod.fst = m.map Prod.fst ++ [s] := by
  simp

/-! ### `_add_edge` specification -/

theorem addEdgeM_fst (m : EdgeMap) (s e : Node) :
    (addEdgeM m s e).1 = decide (e ∈ lookupList m s) := by
  unfold addEdgeM lookupList
  cases hm : lookupEM m s with
  | none => simp
  | some l => by_cases he : e ∈ l <;> simp [he]

theorem addEdgeM_snd_of_mem {m : EdgeMap} {s e : Node}
    (h : e ∈ lookupList m s) : (addEdgeM m s e).2 = m := by
  unfold addEdgeM
  rw [lookupEM_eq_some_of_mem_lookupList h]
  simp [h]

theorem lookupEM_addEdgeM_ne {k s : Node} (m : EdgeMap) (e : Node)
    (h : k ≠ s) : lookupEM (addEdgeM m s e).2 k = lookupEM m k := by
  unfold addEdgeM
  cases hm : lookupEM m s with
  | none => simp [lookupEM_append_ne m [e] h]
  | some l =>
    by_cases he : e ∈ l
    · simp [he]
    · simp [he, lookupEM_updateEM_ne m (l ++ [e]) h]

theorem lookupEM_addEdgeM_self {m : EdgeMap} {s e : Node}
    (h : e ∉ lookupList m s) :
    lookupEM (addEdgeM m s e).2 s = some (lookupList m s ++ [e]) := by
  unfold addEdgeM
  cases hm : lookupEM m s with
  | none =>
    simp only
    rw [lookupEM_append_self hm [e]]
    unfold lookupList
    rw [hm]
    rfl
  | some l =>
    have he : e ∉ l := by
      unfold lookupList at h
      rw [hm] at h
      exact h
    simp only [if_neg he]
    rw [lookupEM_updateEM_self hm (l ++ [e])]
    unfold lookupList
    rw [hm]
    rfl

theorem addEdgeM_keysND {m : EdgeMap} {s e : Node}
    (h : (m.map Prod.fst).Nodup) : ((addEdgeM m s e).2.map Prod.fst).Nodup := by
  unfold addEdgeM
  cases hm : lookupEM m s with
  | none =>
    have hs : s ∉ m.map Prod.fst := (lookupEM_eq_none_iff m s).mp hm
    simp only
    rw [keys_append]
    exact h.append (List.nodup_singleton s)
      (fun a ha hb => hs (List.mem_singleton.mp hb ▸ ha))
  | some l => by_cases he : e ∈ l <;> simp [he, updateEM_keys, h]

theorem outCount_addEdgeM_le (m : EdgeMap) (s e : Node) :
    outCount (addEdgeM m s e).2 ≤ outCount m + 1 := by
  unfold addEdgeM
  cases hm : lookupEM m s with
  | none => simp [outCount_append]
  | some l =>
    by_cases he : e ∈ l
    · simp [he]
    · simp only [if_neg he]
      have := outCount_updateEM hm (l ++ [e])
      simp only [List.length_append, List.length_singleton] at this
      omega

theorem outCount_addEdgeM_of_not_mem {m : EdgeMap} {s e : Node}
    (h : e ∉ lookupList m s) :
    outCount (addEdgeM m s e).2 = outCount m + 1 := by
  unfold addEdgeM
  cases hm : lookupEM m s with
  | none => simp [outCount_append]
  | some l =>
    have he : e ∉ l := by
      unfold lookupList at h
      rw [hm] at h
      exact h
    simp only [if_neg he]
    have := outCount_updateEM hm (l ++ [e])
    simp only [List.length_append, List.length_singleton] at this
    omega

theorem addEdgeM_nd {m : EdgeMap} {s e : Node}
    (hnd : ∀ k, (lookupList m k).Nodup) :
    ∀ k, (lookupList (addEdgeM m s e).2 k).Nodup := by
  intro k
  by_cases hk : k = s
  · subst hk
    by_cases he : e ∈ lookupList m k
    · rw [addEdgeM_snd_of_mem he]
      exact hnd k
    · unfold lookupList
      rw [lookupEM_addEdgeM_self he]
      refine List.Nodup.append (hnd k) (List.nodup_singleton e) ?_
      intro a ha hb
      exact he (List.mem_singleton.mp hb ▸ ha)
  · unfold lookupList
    rw [lookupEM_addEdgeM_ne m e hk]
    exact hnd k

theorem addEdgeM_ne_nil {m : EdgeMap} {s e : Node}
    (hne : ∀ k l, lookupEM m k = some l → l ≠ []) :
    ∀ k l, lookupEM (addEdgeM m s e).2 k = some l → l ≠ [] := by
  intro k l hl
  by_cases hk : k = s
  · subst hk
    by_cases he : e ∈ lookupList m k
    · rw [addEdgeM_snd_of_mem he] at hl
      exact hne _ _ hl
    · rw [lookupEM_addEdgeM_self he] at hl
      injection hl with hl2
      subst hl2
      simp
  · rw [lookupEM_addEdgeM_ne m e hk] at hl
    exact hne _ _ hl

/-- Membership after `_add_edge`: exactly the old edges plus `s → e`. -/
theorem mem_lookupList_addEdgeM (m : EdgeMap) (s e : Node) (k b : Node) :
    b ∈ lookupList (addEdgeM m s e).2 k ↔
      (b ∈ lookupList m k ∨ (k = s ∧ b = e)) := by
  by_cases hk : k = s
  · subst hk
    by_cases he : e ∈ lookupList m k
    · rw [addEdgeM_snd_of_mem he]
      constructor
      · exact fun h => Or.inl h
      · rintro (h | ⟨-, rfl⟩)
        · exact h
        · exact he
    · unfold lookupList
      rw [lookupEM_addEdgeM_self he]
      simp [lookupList]
  · unfold lookupList
    rw [lookupEM_addEdgeM_ne m e hk]
    simp [hk]

/-! ### `_del_edge` specification -/

theorem delEdgeM_eq_none_iff (m : EdgeMap) (s e : Node) :
    delEdgeM m s e = none ↔ e ∉ lookupList m s := by
  unfold delEdgeM
  by_cases he : e ∈ lookupList m s <;> simp [he]

theorem lookupEM_delEdgeM_ne {m m' : EdgeMap} {s e : Node}
    (h : delEdgeM m s e = some m') {k : Node} (hk : k ≠ s) :
    lookupEM m' k = lookupEM m k := by
  unfold delEdgeM at h
  by_cases he : e ∈ lookupList m s
  · simp only [if_pos he, Option.some.injEq] at h
    subst h
    by_cases h2 : (lookupList m s).erase e = []
    · rw [if_pos h2]
      exact lookupEM_removeEM_ne m hk
    · rw [if_neg h2]
      exact lookupEM_updateEM_ne m _ hk
  · simp [he] at h

theorem lookupList_delEdgeM_self {m m' : EdgeMap} {s e : Node}
    (hnd : (m.map Prod.fst).Nodup) (h : delEdgeM m s e = some m') :
    lookupList m' s = (lookupList m s).erase e := by
  unfold delEdgeM at h
  by_cases he : e ∈ lookupList m s
  · simp only [if_pos he, Option.some.injEq] at h
    subst h
    by_cases h2 : (lookupList m s).erase e = []
    · rw [if_pos h2, h2]
      unfold lookupList
      rw [lookupEM_removeEM_self hnd]
      rfl
    · rw [if_neg h2]
      unfold lookupList
      rw [lookupEM_updateEM_self (lookupEM_eq_some_of_mem_lookupList he) _]
      rfl
  · simp [he] at h

theorem outCount_delEdgeM {m m' : EdgeMap} {s e : Node}
    (h : delEdgeM m s e = some m') : outCount m' + 1 = outCount m := by
  unfold delEdgeM at h
  by_cases he : e ∈ lookupList m s
  · have hsome := lookupEM_eq_some_of_mem_lookupList he
    have hpos : 0 < (lookupList m s).length :=
      List.length_pos.mpr (List.ne_nil_of_mem he)
    have hlen : ((lookupList m s).erase e).length = (lookupList m s).length - 1 :=
      List.length_erase_of_mem he
    simp only [if_pos he, Option.some.injEq] at h
    subst h
    by_cases h2 : (lookupList m s).erase e = []
    · rw [if_pos h2]
      have := outCount_removeEM hsome
      rw [h2] at hlen
      simp at hlen
      omega
    · rw [if_neg h2]
      have := outCount_updateEM hsome ((lookupList m s).erase e)
      omega
  · simp [he] at h

theorem delEdgeM_keys_sublist {m m' : EdgeMap} {s e : Node}
    (h : delEdgeM m s e = some m') :
    (m'.map Prod.fst).Sublist (m.map Prod.fst) := by
  unfold delEdgeM at h
  by_cases he : e ∈ lookupList m s
  · simp only [if_pos he, Option.some.injEq] at h
    subst h
    by_cases h2 : (lookupList m s).erase e = []
    · rw [if_pos h2]
      exact removeEM_keys_sublist m s
    · rw [if_neg h2, updateEM_keys]
  · simp [he] at h

theorem delEdgeM_nd {m m' : EdgeMap} {s e : Node}
    (hknd : (m.map Prod.fst).Nodup) (hnd : ∀ k, (lookupList m k).Nodup)
    (h : delEdgeM m s e = some m') :
    ∀ k, (lookupList m' k).Nodup := by
  intro k
  by_cases hk : k = s
  · subst hk
    rw [lookupList_delEdgeM_self hknd h]
    exact (hnd k).erase e
  · unfold lookupList
    rw [lookupEM_delEdgeM_ne h hk]
    exact hnd k

theorem delEdgeM_ne_nil {m m' : EdgeMap} {s e : Node}
    (hknd : (m.map Prod.fst).Nodup)
    (hne : ∀ k l, lookupEM m k = some l → l ≠ [])
    (h : delEdgeM m s e = some m') :
    ∀ k l, lookupEM m' k = some l → l ≠ [] := by
  intro k l hl
  by_cases hk : k = s
  · subst hk
    unfold delEdgeM at h
    by_cases he : e ∈ lookupList m k
    · simp only [if_pos he, Option.some.injEq] at h
      subst h
      by_cases h2 : (lookupList m k).erase e = []
      · rw [if_pos h2] at hl
        rw [lookupEM_removeEM_self hknd] at hl
        cases hl
      · rw [if_neg h2] at hl
        rw [lookupEM_updateEM_self (lookupEM_eq_some_of_mem_lookupList he) _] at hl
        injection hl with hl2
        subst hl2
        exact h2
    · simp [he] at h
  · rw [lookupEM_delEdgeM_ne h hk] at hl
    exact hne _ _ hl

/-- Membership after `_del_edge`: exactly the old edges minus `s → e`. -/
theorem mem_lookupList_delEdgeM {m m' : EdgeMap} {s e : Node}
    (hknd : (m.map Prod.fst).Nodup) (hnd : ∀ k, (lookupList m k).Nodup)
    (h : delEdgeM m s e = some m') (k b : Node) :
    b ∈ lookupList m' k ↔ (b ∈ lookupList m k ∧ ¬(k = s ∧ b = e)) := by
  by_cases hk : k = s
  · subst hk
    rw [lookupList_delEdgeM_self hknd h]
    rw [List.Nodup.mem_erase_iff (hnd k)]
    constructor
    · rintro ⟨hne, hmem⟩
      exact ⟨hmem, fun hand => hne hand.2⟩
    · rintro ⟨hmem, hno⟩
      exact ⟨fun he2 => hno ⟨rfl, he2⟩, hmem⟩
  · unfold lookupList
    rw [lookupEM_delEdgeM_ne h hk]
    simp [lookupList, hk]

/-! ### `add_directed_edge` specification -/

theorem add_flag_agree {g : Graph}
    (hm : ∀ a b, b ∈ lookupList g.outedges a ↔ a ∈ lookupList g.inedges b)
    (s e : Node) :
    (addEdgeM g.outedges s e).1 = (addEdgeM g.inedges e s).1 := by
  rw [addEdgeM_fst, addEdgeM_fst]
  exact decide_eq_decide.mpr (hm s e)

theorem add_directed_edge_eq_some {g : Graph}
    (hm : ∀ a b, b ∈ lookupList g.outedges a ↔ a ∈ lookupList g.inedges b)
    (s e : Node) :
    add_directed_edge g s e =
      some ((addEdgeM g.outedges s e).1,
        ⟨(addEdgeM g.outedges s e).2, (addEdgeM g.inedges e s).2⟩) := by
  unfold add_directed_edge
  rw [if_pos (add_flag_agree hm s e)]

/-- Full specification of `add_directed_edge` on a well-formed graph. -/
theorem add_spec {g : Graph} (hwf : WF g) (s e : Node) :
    ∃ flag g', add_directed_edge g s e = some (flag, g') ∧ WF g' ∧
      (flag = true ↔ edgeMem g s e) ∧
      (flag = true → g' = g) ∧
      (∀ a b, b ∈ lookupList g'.outedges a ↔
        (b ∈ lookupList g.outedges a ∨ (a = s ∧ b = e))) ∧
      (∀ a b, a ∈ lookupList g'.inedges b ↔
        (a ∈ lookupList g.inedges b ∨ (a = s ∧ b = e))) ∧
      (∀ k, k ≠ s → lookupEM g'.outedges k = lookupEM g.outedges k) ∧
      (∀ k, k ≠ e → lookupEM g'.inedges k = lookupEM g.inedges k) ∧
      (flag = false →
        lookupList g'.outedges s = lookupList g.outedges s ++ [e] ∧
        lookupList g'.inedges e = lookupList g.inedges e ++ [s]) := by
  refine ⟨(addEdgeM g.outedges s e).1,
    ⟨(addEdgeM g.outedges s e).2, (addEdgeM g.inedges e s).2⟩,
    add_directed_edge_eq_some hwf.mirror s e, ?_, ?_, ?_, ?_, ?_, ?_, ?_, ?_⟩
  · -- WF of the new graph
    have hmemo : ∀ a b, b ∈ lookupList (addEdgeM g.outedges s e).2 a ↔
        (b ∈ lookupList g.outedges a ∨ (a = s ∧ b = e)) := fun a b =>
      mem_lookupList_addEdgeM g.outedges s e a b
    have hmemi : ∀ a b, a ∈ lookupList (addEdgeM g.inedges e s).2 b ↔
        (a ∈ lookupList g.inedges b ∨ (a = s ∧ b = e)) := by
      intro a b
      rw [mem_lookupList_addEdgeM g.inedges e s b a]
      constructor
      · rintro (h | ⟨rfl, rfl⟩)
        · exact Or.inl h
        · exact Or.inr ⟨rfl, rfl⟩
      · rintro (h | ⟨rfl, rfl⟩)
        · exact Or.inl h
        · exact Or.inr ⟨rfl, rfl⟩
    exact {
      keysND_out := addEdgeM_keysND hwf.keysND_out
      keysND_in := addEdgeM_keysND hwf.keysND_in
      mirror := by
        intro a b
        rw [hmemo a b, hmemi a b, hwf.mirror a b]
      nd_out := addEdgeM_nd hwf.nd_out
      nd_in := addEdgeM_nd hwf.nd_in
      ne_out := addEdgeM_ne_nil hwf.ne_out
      ne_in := addEdgeM_ne_nil hwf.ne_in }
  · rw [addEdgeM_fst]
    unfold edgeMem
    simp
  · -- already existed: both maps unchanged
    intro hf
    rw [addEdgeM_fst] at hf
    have he : e ∈ lookupList g.outedges s := by simpa using hf
    have hs : s ∈ lookupList g.inedges e := (hwf.mirror s e).mp he
    rw [addEdgeM_snd_of_mem he, addEdgeM_snd_of_mem hs]
  · exact fun a b => mem_lookupList_addEdgeM g.outedges s e a b
  · intro a b
    rw [mem_lookupList_addEdgeM g.inedges e s b a]
    constructor
    · rintro (h | ⟨rfl, rfl⟩)
      · exact Or.inl h
      · exact Or.inr ⟨rfl, rfl⟩
    · rintro (h | ⟨rfl, rfl⟩)
      · exact Or.inl h
      · exact Or.inr ⟨rfl, rfl⟩
  · exact fun k hk => lookupEM_addEdgeM_ne g.outedges e hk
  · exact fun k hk => lookupEM_addEdgeM_ne g.inedges s hk
  · intro hf
    rw [addEdgeM_fst] at hf
    have he : e ∉ lookupList g.outedges s := by simpa using hf
    have hs : s ∉ lookupList g.inedges e := fun hc => he ((hwf.mirror s e).mpr hc)
    constructor
    · unfold lookupList
      rw [lookupEM_addEdgeM_self he]
      rfl
    · unfold lookupList
      rw [lookupEM_addEdgeM_self hs]
      rfl

/-! ### `del_directed_edge` specification -/

theorem del_directed_edge_not_mem {g : Graph} {s e : Node}
    (h : ¬ edgeMem g s e) : del_directed_edge g s e = .error g := by
  unfold del_directed_edge
  rw [(delEdgeM_eq_none_iff g.outedges s e).mpr h]

/-- Full specification of `del_directed_edge` on a well-formed graph when
the edge is present. -/
theorem del_spec {g : Graph} (hwf : WF g) {s e : Node} (h : edgeMem g s e) :
    ∃ g', del_directed_edge g s e = .ok g' ∧ WF g' ∧
      (∀ a b, b ∈ lookupList g'.outedges a ↔
        (b ∈ lookupList g.outedges a ∧ ¬(a = s ∧ b = e))) ∧
      (∀ a b, a ∈ lookupList g'.inedges b ↔
        (a ∈ lookupList g.inedges b ∧ ¬(a = s ∧ b = e))) ∧
      lookupList g'.outedges s = (lookupList g.outedges s).erase e ∧
      lookupList g'.inedges e = (lookupList g.inedges e).erase s ∧
      (∀ k, k ≠ s → lookupEM g'.outedges k = lookupEM g.outedges k) ∧
      (∀ k, k ≠ e → lookupEM g'.inedges k = lookupEM g.inedges k) ∧
      outCount g'.outedges + 1 = outCount g.outedges := by
  have he : e ∈ lookupList g.outedges s := h
  have hs : s ∈ lookupList g.inedges e := (hwf.mirror s e).mp he
  cases hdo : delEdgeM g.outedges s e with
  | none =>
    rw [delEdgeM_eq_none_iff] at hdo
    exact absurd he hdo
  | some out' =>
    cases hdi : delEdgeM g.inedges e s with
    | none =>
      rw [delEdgeM_eq_none_iff] at hdi
      exact absurd hs hdi
    | some in' =>
      refine ⟨⟨out', in'⟩, ?_, ?_, ?_, ?_, ?_, ?_, ?_, ?_, ?_⟩
      · unfold del_directed_edge
        rw [hdo, hdi]
      · exact {
          keysND_out := (delEdgeM_keys_sublist hdo).nodup hwf.keysND_out
          keysND_in := (delEdgeM_keys_sublist hdi).nodup hwf.keysND_in
          mirror := by
            intro a b
            rw [mem_lookupList_delEdgeM hwf.keysND_out hwf.nd_out hdo a b]
            rw [mem_lookupList_delEdgeM hwf.keysND_in hwf.nd_in hdi b a]
            rw [hwf.mirror a b]
            tauto
          nd_out := delEdgeM_nd hwf.keysND_out hwf.nd_out hdo
          nd_in := delEdgeM_nd hwf.keysND_in hwf.nd_in hdi
          ne_out := delEdgeM_ne_nil hwf.keysND_out hwf.ne_out hdo
          ne_in := delEdgeM_ne_nil hwf.keysND_in hwf.ne_in hdi }
      · exact fun a b => mem_lookupList_delEdgeM hwf.keysND_out hwf.nd_out hdo a b
      · intro a b
        rw [mem_lookupList_delEdgeM hwf.keysND_in hwf.nd_in hdi b a]
        tauto
      · exact lookupList_delEdgeM_self hwf.keysND_out hdo
      · exact lookupList_delEdgeM_self hwf.keysND_in hdi
      · exact fun k hk => lookupEM_delEdgeM_ne hdo hk
      · exact fun k hk => lookupEM_delEdgeM_ne hdi hk
      · exact outCount_delEdgeM hdo

/-! ### Counting facts that hold on arbitrary (even ill-formed) states -/

theorem del_directed_edge_ok_count {g g' : Graph} {s e : Node}
    (h : del_directed_edge g s e = .ok g') :
    outCount g'.outedges + 1 = outCount g.outedges := by
  unfold del_directed_edge at h
  cases h1 : delEdgeM g.outedges s e with
  | none =>
    rw [h1] at h
    cases h
  | some out' =>
    rw [h1] at h
    cases h2 : delEdgeM g.inedges e s with
    | none =>
      rw [h2] at h
      cases h
    | some in' =>
      rw [h2] at h
      simp only [Except.ok.injEq] at h
      subst h
      exact outCount_delEdgeM h1

theorem add_directed_edge_some_count {g g' : Graph} {s e : Node} {flag : Bool}
    (h : add_directed_edge g s e = some (flag, g')) :
    outCount g'.outedges ≤ outCount g.outedges + 1 := by
  unfold add_directed_edge at h
  by_cases hf : (addEdgeM g.outedges s e).1 = (addEdgeM g.inedges e s).1
  · rw [if_pos hf] at h
    simp only [Option.some.injEq, Prod.mk.injEq] at h
    rw [← h.2]
    exact outCount_addEdgeM_le g.outedges s e
  · rw [if_neg hf] at h
    cases h

theorem add_directed_edge_true_eq {g g' : Graph} {s e : Node}
    (h : add_directed_edge g s e = some (true, g')) : g' = g := by
  unfold add_directed_edge at h
  by_cases hf : (addEdgeM g.outedges s e).1 = (addEdgeM g.inedges e s).1
  · rw [if_pos hf] at h
    simp only [Option.some.injEq, Prod.mk.injEq] at h
    obtain ⟨h1, h2⟩ := h
    have ho : e ∈ lookupList g.outedges s := by
      have := addEdgeM_fst g.outedges s e
      rw [h1] at this
      simpa using this.symm
    have hi : s ∈ lookupList g.inedges e := by
      have := addEdgeM_fst g.inedges e s
      rw [← hf, h1] at this
      simpa using this.symm
    rw [← h2, addEdgeM_snd_of_mem ho, addEdgeM_snd_of_mem hi]
  · rw [if_neg hf] at h
    cases h

/-- Every successful worklist step shrinks `3·(edge count)` by at least as
much as it lengthens the queue (used as the fuel measure). -/
theorem reduceStep_measure {g g' : Graph} {node : Node} {extra : List Node}
    (h : reduceStep g node = some (g', extra)) :
    3 * outCount g'.outedges + extra.length ≤ 3 * outCount g.outedges := by
  simp only [reduceStep] at h
  split at h
  · -- the node passes the degree test
    split at h
    · -- first deletion raised
      cases h
    · -- first deletion succeeded
      rename_i g1 h1
      have hc1 := del_directed_edge_ok_count h1
      split at h
      · -- self-cycle arm
        simp only [Option.some.injEq, Prod.mk.injEq] at h
        obtain ⟨rfl, rfl⟩ := h
        simp only [List.length_nil]
        omega
      · split at h
        · -- second deletion raised
          cases h
        · rename_i g2 h2
          have hc2 := del_directed_edge_ok_count h2
          split at h
          · -- assertion in add_directed_edge failed
            cases h
          · rename_i already g3 h3
            have hc3 := add_directed_edge_some_count h3
            cases already with
            | true =>
              have hg32 : g3 = g2 := add_directed_edge_true_eq h3
              simp only [if_pos rfl, Option.some.injEq, Prod.mk.injEq] at h
              obtain ⟨rfl, rfl⟩ := h
              subst hg32
              simp only [List.length_cons, List.length_nil]
              omega
            | false =>
              simp only [Bool.false_eq_true, if_neg, Option.some.injEq,
                Prod.mk.injEq] at h
              obtain ⟨rfl, rfl⟩ := h
              simp only [List.length_nil]
              omega
  · -- the node fails the degree test: state unchanged
    simp only [Option.some.injEq, Prod.mk.injEq] at h
    obtain ⟨rfl, rfl⟩ := h
    simp

/-- With fuel exceeding the measure, the worklist loop never runs out. -/
theorem reduceLoop_no_outOfFuel :
    ∀ (fuel : Nat) (g : Graph) (cands : List Node),
      graphMeasure g cands < fuel → reduceLoop fuel g cands ≠ .outOfFuel := by
  intro fuel
  induction fuel with
  | zero =>
    intro g cands hlt
    exact absurd hlt (Nat.not_lt_zero _)
  | succ f ih =>
    intro g cands hlt
    cases cands with
    | nil => simp [reduceLoop]
    | cons node rest =>
      simp only [reduceLoop]
      cases hs : reduceStep g node with
      | none => simp
      | some r =>
        obtain ⟨g2, extra⟩ := r
        have hm := reduceStep_measure hs
        show reduceLoop f g2 (rest ++ extra) ≠ .outOfFuel
        apply ih
        unfold graphMeasure at *
        simp only [List.length_append, List.length_cons] at *
        omega

/-- On a well-formed graph a worklist step never raises, preserves
well-formedness, and accounts for every pass-through node of the new
state: it was already pass-through (and is not the popped node), or it
was explicitly re-queued. -/
theorem reduceStep_spec {g : Graph} (hwf : WF g) (node : Node) :
    ∃ g' extra, reduceStep g node = some (g', extra) ∧ WF g' ∧
      (∀ m, passThrough g' m → (passThrough g m ∧ m ≠ node) ∨ m ∈ extra) := by
  by_cases hc : (lookupList g.outedges node).length = 1 ∧
      (lookupList g.inedges node).length = 1
  case neg =>
    refine ⟨g, [], ?_, hwf, ?_⟩
    · simp only [reduceStep]
      rw [if_neg hc]
    · intro m hm
      left
      refine ⟨hm, ?_⟩
      rintro rfl
      exact hc ⟨hm.1, hm.2⟩
  case pos =>
    obtain ⟨hol, hil⟩ := hc
    obtain ⟨nbr_out, hout⟩ := List.length_eq_one.mp hol
    obtain ⟨nbr_in, hin⟩ := List.length_eq_one.mp hil
    have hmem_in : nbr_in ∈ lookupList g.inedges node := by
      rw [hin]
      exact List.mem_singleton_self nbr_in
    have hedge1 : edgeMem g nbr_in node := (hwf.mirror nbr_in node).mpr hmem_in
    by_cases hno : node = nbr_out
    case pos =>
      -- the single outgoing edge is a self-loop, hence so is the incoming one
      have hself : node ∈ lookupList g.outedges node := by
        rw [hout]
        exact hno ▸ List.mem_singleton_self node
      have hselfin : node ∈ lookupList g.inedges node :=
        (hwf.mirror node node).mp hself
      have hnin : nbr_in = node := by
        rw [hin] at hselfin
        exact (List.mem_singleton.mp hselfin).symm
      subst hnin
      obtain ⟨g1, hd1, hwf1, hmo1, hmi1, hso1, hsi1, hko1, hki1, hc1⟩ :=
        del_spec hwf hedge1
      refine ⟨g1, [], ?_, hwf1, ?_⟩
      · simp only [reduceStep]
        rw [if_pos ⟨hol, hil⟩, hin, hout]
        simp only [List.headD_cons, hd1]
        rw [if_pos hno]
      · intro m hm
        left
        by_cases hmn : m = nbr_in
        · exfalso
          subst hmn
          have hempty : lookupList g1.outedges m = [] := by
            rw [hso1, hout, ← hno]
            simp
          rw [passThrough, hempty] at hm
          simp at hm
        · have eo : lookupList g1.outedges m = lookupList g.outedges m := by
            unfold lookupList
            rw [hko1 m hmn]
          have ei : lookupList g1.inedges m = lookupList g.inedges m := by
            unfold lookupList
            rw [hki1 m hmn]
          exact ⟨⟨eo ▸ hm.1, ei ▸ hm.2⟩, hmn⟩
    case neg =>
      have hnbr_out_mem : nbr_out ∈ lookupList g.outedges node := by
        rw [hout]
        exact List.mem_singleton_self nbr_out
      have hni : nbr_in ≠ node := by
        intro hcon
        have h2 : node ∈ lookupList g.inedges node := hcon ▸ hmem_in
        have h3 : node ∈ lookupList g.outedges node := (hwf.mirror node node).mpr h2
        rw [hout] at h3
        exact hno (List.mem_singleton.mp h3)
      obtain ⟨g1, hd1, hwf1, hmo1, hmi1, hso1, hsi1, hko1, hki1, hc1⟩ :=
        del_spec hwf hedge1
      have hout1 : lookupList g1.outedges node = [nbr_out] := by
        unfold lookupList
        rw [hko1 node (Ne.symm hni)]
        exact hout
      have hedge2 : edgeMem g1 node nbr_out := by
        unfold edgeMem
        rw [hout1]
        exact List.mem_singleton_self nbr_out
      obtain ⟨g2, hd2, hwf2, hmo2, hmi2, hso2, hsi2, hko2, hki2, hc2⟩ :=
        del_spec hwf1 hedge2
      obtain ⟨flag, g3, ha3, hwf3, hiff3, htrue3, hamo, hami, hako, haki, hfalse3⟩ :=
        add_spec hwf2 nbr_in nbr_out
      -- facts independent of the already-connected flag
      have hnodeout2 : lookupList g2.outedges node = [] := by
        rw [hso2, hout1]
        simp
      have hnodein1 : lookupList g1.inedges node = [] := by
        rw [hsi1, hin]
        simp
      have hnodein2 : lookupList g2.inedges node = [] := by
        unfold lookupList
        rw [hki2 node (fun hc2' => hno hc2')]
        exact hnodein1
      have hmem_in_out : node ∈ lookupList g.outedges nbr_in := hedge1
      have hmem_out_in : node ∈ lookupList g.inedges nbr_out :=
        (hwf.mirror node nbr_out).mp hnbr_out_mem
      cases flag with
      | true =>
        have hg32 : g3 = g2 := htrue3 rfl
        refine ⟨g3, [nbr_in, nbr_out], ?_, hwf3, ?_⟩
        · simp only [reduceStep]
          rw [if_pos ⟨hol, hil⟩, hin, hout]
          simp only [List.headD_cons, hd1]
          rw [if_neg hno]
          simp only [hd2, ha3]
          simp
        · intro m hm
          by_cases hmin : m = nbr_in
          · right
            simp [hmin]
          · by_cases hmout : m = nbr_out
            · right
              simp [hmout]
            · left
              by_cases hmn : m = node
              · exfalso
                subst hmn
                rw [passThrough, hg32, hnodeout2] at hm
                simp at hm
              · have eo : lookupList g3.outedges m = lookupList g.outedges m := by
                  rw [hg32]
                  unfold lookupList
                  rw [hko2 m hmn, hko1 m hmin]
                have ei : lookupList g3.inedges m = lookupList g.inedges m := by
                  rw [hg32]
                  unfold lookupList
                  rw [hki2 m hmout, hki1 m hmn]
                exact ⟨⟨eo ▸ hm.1, ei ▸ hm.2⟩, hmn⟩
      | false =>
        obtain ⟨hselfo3, hselfi3⟩ := hfalse3 rfl
        refine ⟨g3, [], ?_, hwf3, ?_⟩
        · simp only [reduceStep]
          rw [if_pos ⟨hol, hil⟩, hin, hout]
          simp only [List.headD_cons, hd1]
          rw [if_neg hno]
          simp only [hd2, ha3]
          rfl
        · intro m hm
          left
          by_cases hmn : m = node
          · exfalso
            subst hmn
            have hao : lookupList g3.outedges m = [] := by
              unfold lookupList
              rw [hako m (Ne.symm hni)]
              exact hnodeout2
            rw [passThrough, hao] at hm
            simp at hm
          · refine ⟨⟨?_, ?_⟩, hmn⟩
            · -- out-degree of m is unchanged
              by_cases hmin : m = nbr_in
              · subst hmin
                have h3o : lookupList g3.outedges m =
                    (lookupList g.outedges m).erase node ++ [nbr_out] := by
                  rw [hselfo3]
                  unfold lookupList
                  rw [hko2 m hmn]
                  have : lookupList g1.outedges m = (lookupList g.outedges m).erase node := hso1
                  unfold lookupList at this
                  rw [this]
                have hlen : ((lookupList g.outedges m).erase node).length + 1 =
                    (lookupList g.outedges m).length := by
                  rw [List.length_erase_of_mem hmem_in_out]
                  have : 0 < (lookupList g.outedges m).length :=
                    List.length_pos.mpr (List.ne_nil_of_mem hmem_in_out)
                  omega
                have hm1 := hm.1
                rw [h3o, List.length_append] at hm1
                simp only [List.length_singleton] at hm1
                omega
              · have eo : lookupList g3.outedges m = lookupList g.outedges m := by
                  unfold lookupList
                  rw [hako m hmin, hko2 m hmn, hko1 m hmin]
                have hm1 := hm.1
                rw [eo] at hm1
                exact hm1
            · -- in-degree of m is unchanged
              by_cases hmout : m = nbr_out
              · subst hmout
                have h3i : lookupList g3.inedges m =
                    (lookupList g.inedges m).erase node ++ [nbr_in] := by
                  rw [hselfi3]
                  have h2i : lookupList g2.inedges m =
                      (lookupList g1.inedges m).erase node := hsi2
                  have h1i : lookupList g1.inedges m = lookupList g.inedges m := by
                    unfold lookupList
                    rw [hki1 m (Ne.symm hno)]
                  rw [h2i, h1i]
                have hlen : ((lookupList g.inedges m).erase node).length + 1 =
                    (lookupList g.inedges m).length := by
                  rw [List.length_erase_of_mem hmem_out_in]
                  have : 0 < (lookupList g.inedges m).length :=
                    List.length_pos.mpr (List.ne_nil_of_mem hmem_out_in)
                  omega
                have hm2 := hm.2
                rw [h3i, List.length_append] at hm2
                simp only [List.length_singleton] at hm2
                omega
              · have ei : lookupList g3.inedges m = lookupList g.inedges m := by
                  unfold lookupList
                  rw [haki m hmout, hki2 m hmout, hki1 m hmn]
                have hm2 := hm.2
                rw [ei] at hm2
                exact hm2

/-- Main worklist invariant: enough fuel, a well-formed state, and a queue
containing every pass-through node gives a normal return on a well-formed
state with no pass-through node at all. -/
theorem reduceLoop_spec :
    ∀ (fuel : Nat) (g : Graph) (cands : List Node), WF g →
      (∀ m, passThrough g m → m ∈ cands) →
      graphMeasure g cands < fuel →
      ∃ g', reduceLoop fuel g cands = .done g' ∧ WF g' ∧
        ∀ m, ¬ passThrough g' m := by
  intro fuel
  induction fuel with
  | zero =>
    intro g cands _ _ hlt
    exact absurd hlt (Nat.not_lt_zero _)
  | succ f ih =>
    intro g cands hwf hcand hlt
    cases cands with
    | nil =>
      refine ⟨g, rfl, hwf, ?_⟩
      intro m hm
      exact (List.not_mem_nil m) (hcand m hm)
    | cons node rest =>
      obtain ⟨g2, extra, hstep, hwf2, htrans⟩ := reduceStep_spec hwf node
      have hmeas := reduceStep_measure hstep
      have hcand2 : ∀ m, passThrough g2 m → m ∈ rest ++ extra := by
        intro m hm
        rcases htrans m hm with ⟨hpt, hne⟩ | hex
        · rcases List.mem_cons.mp (hcand m hpt) with h | h
          · exact absurd h hne
          · exact List.mem_append_left _ h
        · exact List.mem_append_right _ hex
      have hlt2 : graphMeasure g2 (rest ++ extra) < f := by
        unfold graphMeasure at *
        simp only [List.length_append, List.length_cons] at *
        omega
      obtain ⟨g', hrun, hwf', hnopt⟩ := ih g2 (rest ++ extra) hwf2 hcand2 hlt2
      refine ⟨g', ?_, hwf', hnopt⟩
      simp only [reduceLoop, hstep]
      exact hrun

/-- On a state with no pass-through node the loop only pops and never
changes the graph. -/
theorem reduceLoop_noop :
    ∀ (fuel : Nat) (g : Graph) (cands : List Node),
      (∀ m, ¬ passThrough g m) → cands.length < fuel →
      reduceLoop fuel g cands = .done g := by
  intro fuel
  induction fuel with
  | zero =>
    intro g cands _ hlt
    exact absurd hlt (Nat.not_lt_zero _)
  | succ f ih =>
    intro g cands hno hlt
    cases cands with
    | nil => rfl
    | cons node rest =>
      have hstep : reduceStep g node = some (g, []) := by
        have hcond : ¬ ((lookupList g.outedges node).length = 1 ∧
            (lookupList g.inedges node).length = 1) := hno node
        simp only [reduceStep]
        rw [if_neg hcond]
      simp only [reduceLoop, hstep]
      rw [List.append_nil]
      apply ih g rest hno
      simp only [List.length_cons] at hlt
      omega

/-- A pass-through node has an outgoing edge, so it is an initial
candidate. -/
theorem passThrough_mem_graphKeys {g : Graph} {m : Node}
    (h : passThrough g m) : m ∈ graphKeys g := by
  obtain ⟨h1, -⟩ := h
  unfold graphKeys
  unfold lookupList at h1
  cases hm : lookupEM g.outedges m with
  | none =>
    rw [hm] at h1
    simp at h1
  | some l => exact mem_keys_of_lookupEM hm

/-- `reduce_graph` on a well-formed graph returns normally, preserves
well-formedness and leaves no pass-through node. -/
theorem reduce_graph_spec {g : Graph} (hwf : WF g) :
    ∃ g', reduce_graph g = .done g' ∧ WF g' ∧ ∀ m, ¬ passThrough g' m := by
  unfold reduce_graph
  exact reduceLoop_spec _ g (graphKeys g) hwf
    (fun m hm => passThrough_mem_graphKeys hm) (Nat.lt_succ_self _)

/-! ### Loading and the `WF` checker -/

theorem WF_empty : WF ⟨[], []⟩ := by
  refine ⟨?_, ?_, ?_, ?_, ?_, ?_, ?_⟩ <;> simp [lookupList, lookupEM]

theorem WF_of_WFcheck {g : Graph} (h : WFcheck g) : WF g := by
  obtain ⟨h1, h2, h3, h4, h5, h6, h7, h8⟩ := h
  refine ⟨h1, h2, ?_, ?_, ?_, ?_, ?_⟩
  · intro a b
    constructor
    · intro hb
      have hsome := lookupEM_eq_some_of_mem_lookupList hb
      exact h3 (a, lookupList g.outedges a) (lookupEM_mem hsome) b hb
    · intro ha
      have hsome := lookupEM_eq_some_of_mem_lookupList ha
      exact h4 (b, lookupList g.inedges b) (lookupEM_mem hsome) a ha
  · intro k
    unfold lookupList
    cases hk : lookupEM g.outedges k with
    | none => simp
    | some l => simpa using h5 (k, l) (lookupEM_mem hk)
  · intro k
    unfold lookupList
    cases hk : lookupEM g.inedges k with
    | none => simp
    | some l => simpa using h6 (k, l) (lookupEM_mem hk)
  · intro k l hl
    exact h7 (k, l) (lookupEM_mem hl)
  · intro k l hl
    exact h8 (k, l) (lookupEM_mem hl)

/-- The load loop on all-valid input lines: returns a well-formed graph
whose edges are the initial ones plus the parsed pairs. -/
theorem loadLoop_spec :
    ∀ (lines : List (List Char)) (g0 : Graph), WF g0 →
      (∀ line ∈ lines, parseLine line ≠ none) →
      ∃ g, loadLoop g0 lines = .done g ∧ WF g ∧
        (∀ a b, edgeMem g a b ↔
          (edgeMem g0 a b ∨ ∃ line ∈ lines, parseLine line = some (a, b))) := by
  intro lines
  induction lines with
  | nil =>
    intro g0 hwf _
    refine ⟨g0, rfl, hwf, ?_⟩
    simp
  | cons line rest ih =>
    intro g0 hwf hval
    cases hp : parseLine line with
    | none => exact absurd hp (hval line (List.mem_cons_self _ _))
    | some p =>
      obtain ⟨s, e⟩ := p
      obtain ⟨flag, g1, ha, hwf1, -, -, hmo, -, -, -, -⟩ := add_spec hwf s e
      obtain ⟨g, hrun, hwfg, hmem⟩ :=
        ih g1 hwf1 (fun l hl => hval l (List.mem_cons_of_mem _ hl))
      refine ⟨g, ?_, hwfg, ?_⟩
      · simp only [loadLoop, hp, ha]
        exact hrun
      · intro a b
        rw [hmem a b]
        unfold edgeMem
        rw [hmo a b]
        constructor
        · rintro ((h | ⟨rfl, rfl⟩) | h)
          · exact Or.inl h
          · exact Or.inr ⟨line, List.mem_cons_self _ _, hp⟩
          · obtain ⟨l, hl, hpl⟩ := h
            exact Or.inr ⟨l, List.mem_cons_of_mem _ hl, hpl⟩
        · rintro (h | ⟨l, hl, hpl⟩)
          · exact Or.inl (Or.inl h)
          · rcases List.mem_cons.mp hl with rfl | hl2
            · rw [hp] at hpl
              injection hpl with hpl2
              injection hpl2 with hs he
              exact Or.inl (Or.inr ⟨hs.symm, he.symm⟩)
            · exact Or.inr ⟨l, hl2, hpl⟩

/-- The load loop aborts with `ValueError` as soon as any line is
invalid. -/
theorem loadLoop_invalid :
    ∀ (lines : List (List Char)) (g0 : Graph), WF g0 →
      (∃ line ∈ lines, parseLine line = none) →
      loadLoop g0 lines = .invalidLine := by
  intro lines
  induction lines with
  | nil =>
    intro g0 _ h
    obtain ⟨l, hl, -⟩ := h
    exact absurd hl (List.not_mem_nil l)
  | cons line rest ih =>
    intro g0 hwf h
    cases hp : parseLine line with
    | none => simp only [loadLoop, hp]
    | some p =>
      obtain ⟨s, e⟩ := p
      obtain ⟨flag, g1, ha, hwf1, -, -, -, -, -, -, -⟩ := add_spec hwf s e
      simp only [loadLoop, hp, ha]
      apply ih g1 hwf1
      obtain ⟨l, hl, hpl⟩ := h
      rcases List.mem_cons.mp hl with rfl | hl2
      · rw [hp] at hpl
        cases hpl
      · exact ⟨l, hl2, hpl⟩

/-! ### Parsing and serialization -/

theorem splitTab_ne_nil (cs : List Char) : splitTab cs ≠ [] := by
  cases cs with
  | nil => simp [splitTab]
  | cons c rest =>
    simp only [splitTab]
    cases splitTab rest with
    | nil => simp
    | cons l ls => by_cases hc : c = '\t' <;> simp [hc]

theorem splitTab_no_tab {cs : List Char} (h : '\t' ∉ cs) :
    splitTab cs = [cs] := by
  induction cs with
  | nil => rfl
  | cons c rest ih =>
    have hc : ¬ c = '\t' := fun hcc => h (hcc ▸ List.mem_cons_self _ _)
    have hr : '\t' ∉ rest := fun hm => h (List.mem_cons_of_mem _ hm)
    simp only [splitTab, ih hr]
    rw [if_neg hc]

theorem splitTab_append {a b : List Char} (h : '\t' ∉ a) :
    splitTab (a ++ '\t' :: b) = a :: splitTab b := by
  induction a with
  | nil =>
    simp only [List.nil_append, splitTab]
    cases hs : splitTab b with
    | nil => exact absurd hs (splitTab_ne_nil b)
    | cons l ls => simp
  | cons c rest ih =>
    have hc : ¬ c = '\t' := fun hcc => h (hcc ▸ List.mem_cons_self _ _)
    have hr : '\t' ∉ rest := fun hm => h (List.mem_cons_of_mem _ hm)
    show splitTab (c :: (rest ++ '\t' :: b)) = (c :: rest) :: splitTab b
    simp only [splitTab, List.append_eq, ih hr]
    rw [if_neg hc]

/-- A serialized edge line parses back to exactly its edge. -/
theorem parseLine_round {a b : Node} (ha : validId a) (hb : validId b) :
    parseLine (a.data ++ '\t' :: b.data) = some (a, b) := by
  have hta : '\t' ∉ a.data := fun hm => absurd (ha.2 '\t' hm) (by decide)
  have htb : '\t' ∉ b.data := fun hm => absurd (hb.2 '\t' hm) (by decide)
  unfold parseLine
  rw [splitTab_append hta, splitTab_no_tab htb]
  simp only
  rw [if_pos ⟨ha.1, hb.1, by rw [List.all_eq_true]; exact ha.2,
    by rw [List.all_eq_true]; exact hb.2⟩]

/-- The pair list underlying `to_file` is exactly the edge relation. -/
theorem mem_pairsOf {g : Graph} (hknd : (g.outedges.map Prod.fst).Nodup)
    (a b : Node) : (a, b) ∈ pairsOf g ↔ edgeMem g a b := by
  unfold pairsOf edgeMem
  rw [List.mem_flatMap]
  constructor
  · rintro ⟨p, hp, hmem⟩
    obtain ⟨k, l⟩ := p
    rw [List.mem_map] at hmem
    obtain ⟨e, he, heq⟩ := hmem
    injection heq with h1 h2
    subst h1
    subst h2
    have hl : lookupEM g.outedges k = some l := lookupEM_of_keysND_mem hknd hp
    unfold lookupList
    rw [hl]
    exact he
  · intro hb
    have hsome := lookupEM_eq_some_of_mem_lookupList hb
    exact ⟨(a, lookupList g.outedges a), lookupEM_mem hsome,
      List.mem_map_of_mem _ hb⟩

theorem to_file_eq_map (g : Graph) :
    to_file g = (pairsOf g).map (fun p => p.1.data ++ '\t' :: p.2.data) := by
  unfold to_file pairsOf
  induction g.outedges with
  | nil => rfl
  | cons p rest ih =>
    simp only [List.flatMap_cons, List.map_append, ih, List.map_map]
    rfl

/-! ### Claim theorems -/

/-- C1: for every input graph, after `reduce_graph` returns, no node
remaining in the graph has in-degree exactly 1 and out-degree exactly 1
(absence from a map counted as degree 0).  This is stronger than the
claim, which allows exceptions for isolated mutual pairs or self-loop
structures: the algorithm in fact removes those too, so the exception set
is empty and the claim holds a fortiori. -/
theorem C1_degree_invariant (g g' : Graph) (hwf : WF g)
    (hred : reduce_graph g = RunRes.done g') :
    ∀ n, ¬ passThrough g' n := by
  obtain ⟨g'', hrun, -, hnopt⟩ := reduce_graph_spec hwf
  rw [hrun] at hred
  injection hred with h
  exact h ▸ hnopt

theorem C1_degree_invariant_witness :
    WF (⟨[("A", ["B"])], [("B", ["A"])]⟩ : Graph) ∧
    reduce_graph ⟨[("A", ["B"])], [("B", ["A"])]⟩ =
      RunRes.done ⟨[("A", ["B"])], [("B", ["A"])]⟩ ∧
    ¬ passThrough (⟨[("A", ["B"])], [("B", ["A"])]⟩ : Graph) "B" :=
  have hwf : WF (⟨[("A", ["B"])], [("B", ["A"])]⟩ : Graph) :=
    WF_of_WFcheck (by decide)
  ⟨hwf, by decide, C1_degree_invariant _ _ hwf (by decide) "B"⟩

/-- C2: every public operation — `add_directed_edge`, `del_directed_edge`,
build-from-stream (`from_file`) and `reduce_graph` — preserves the graph
well-formedness invariant `WF` (mirror consistency I1, duplicate-free
adjacency lists I2, and no empty-list entries I3). -/
theorem C2_invariant_preservation :
    (∀ (g : Graph) (s e : Node) (flag : Bool) (g' : Graph), WF g →
        add_directed_edge g s e = some (flag, g') → WF g') ∧
    (∀ (g : Graph) (s e : Node) (g' : Graph), WF g →
        del_directed_edge g s e = .ok g' → WF g') ∧
    (∀ (lines : List (List Char)) (g : Graph),
        from_file lines = .done g → WF g) ∧
    (∀ (g g' : Graph), WF g → reduce_graph g = .done g' → WF g') := by
  refine ⟨?_, ?_, ?_, ?_⟩
  · intro g s e flag g' hwf hadd
    obtain ⟨flag2, g2, heq, hwf2, -, -, -, -, -, -, -⟩ := add_spec hwf s e
    rw [heq] at hadd
    injection hadd with h
    injection h with h1 h2
    exact h2 ▸ hwf2
  · intro g s e g' hwf hdel
    by_cases hmem : edgeMem g s e
    · obtain ⟨g2, heq, hwf2, -, -, -, -, -, -, -⟩ := del_spec hwf hmem
      rw [heq] at hdel
      injection hdel with h
      exact h ▸ hwf2
    · rw [del_directed_edge_not_mem hmem] at hdel
      cases hdel
  · intro lines g hload
    by_cases hval : ∀ line ∈ lines, parseLine line ≠ none
    · obtain ⟨g2, hrun, hwf2, -⟩ := loadLoop_spec lines ⟨[], []⟩ WF_empty hval
      unfold from_file at hload
      rw [hrun] at hload
      injection hload with h
      exact h ▸ hwf2
    · push_neg at hval
      have hinv : from_file lines = .invalidLine :=
        loadLoop_invalid lines ⟨[], []⟩ WF_empty hval
      rw [hinv] at hload
      cases hload
  · intro g g' hwf hred
    obtain ⟨g'', hrun, hwf'', -⟩ := reduce_graph_spec hwf
    rw [hrun] at hred
    injection hred with h
    exact h ▸ hwf''

theorem C2_invariant_preservation_witness :
    WF (⟨[("A", ["B"])], [("B", ["A"])]⟩ : Graph) ∧
    WF (⟨[], []⟩ : Graph) ∧
    WF (⟨[("A", ["B"]), ("B", ["C"])], [("B", ["A"]), ("C", ["B"])]⟩ : Graph) ∧
    WF (⟨[("A", ["C"])], [("C", ["A"])]⟩ : Graph) :=
  have hwf : WF (⟨[("A", ["B"])], [("B", ["A"])]⟩ : Graph) :=
    WF_of_WFcheck (by decide)
  ⟨C2_invariant_preservation.1 ⟨[], []⟩ "A" "B" false
      ⟨[("A", ["B"])], [("B", ["A"])]⟩ WF_empty (by decide),
   C2_invariant_preservation.2.1 ⟨[("A", ["B"])], [("B", ["A"])]⟩ "A" "B"
      ⟨[], []⟩ hwf rfl,
   C2_invariant_preservation.2.2.1 [['A', '\t', 'B'], ['B', '\t', 'C']]
      ⟨[("A", ["B"]), ("B", ["C"])], [("B", ["A"]), ("C", ["B"])]⟩ (by decide),
   C2_invariant_preservation.2.2.2
      ⟨[("A", ["B"]), ("B", ["C"])], [("B", ["A"]), ("C", ["B"])]⟩
      ⟨[("A", ["C"])], [("C", ["A"])]⟩ (WF_of_WFcheck (by decide)) (by decide)⟩

/-- C3: `add_directed_edge` inserts the edge `start → end` into both the
forward and reverse maps; when the edge already exists it is a no-op
returning the already-existed value `true`, otherwise it creates exactly
that one edge and returns `false`; `start = end` yields a single self-loop
recorded symmetrically in both maps (the `s = e` instance of the two
membership conjuncts). -/
theorem C3_add_edge (g : Graph) (s e : Node) (hwf : WF g) :
    ∃ flag g', add_directed_edge g s e = some (flag, g') ∧
      edgeMem g' s e ∧ s ∈ lookupList g'.inedges e ∧
      (flag = true ↔ edgeMem g s e) ∧
      (flag = true → g' = g) ∧
      (flag = false → ∀ a b, edgeMem g' a b ↔
        (edgeMem g a b ∨ (a = s ∧ b = e))) := by
  obtain ⟨flag, g', heq, hwfg, hiff, htrue, hmo, hmi, -, -, -⟩ := add_spec hwf s e
  refine ⟨flag, g', heq, ?_, ?_, hiff, htrue, ?_⟩
  · exact (hmo s e).mpr (Or.inr ⟨rfl, rfl⟩)
  · exact (hmi s e).mpr (Or.inr ⟨rfl, rfl⟩)
  · intro hf a b
    exact hmo a b

theorem C3_add_edge_witness :
    WF (⟨[], []⟩ : Graph) ∧
    ∃ flag g', add_directed_edge ⟨[], []⟩ "A" "A" = some (flag, g') ∧
      edgeMem g' "A" "A" ∧ "A" ∈ lookupList g'.inedges "A" ∧
      (flag = true ↔ edgeMem (⟨[], []⟩ : Graph) "A" "A") ∧
      (flag = true → g' = ⟨[], []⟩) ∧
      (flag = false → ∀ a b, edgeMem g' a b ↔
        (edgeMem (⟨[], []⟩ : Graph) a b ∨ (a = "A" ∧ b = "A"))) :=
  ⟨WF_empty, C3_add_edge ⟨[], []⟩ "A" "A" WF_empty⟩

/-- C4: on a well-formed graph, `del_directed_edge` fails (with the
`KeyError` standing for NoSuchEdge) iff the edge is absent, and a failure
leaves the graph exactly as it was; a success deletes precisely that edge
from both maps and drops any key whose list became empty (I3 for the
result). -/
theorem C4_remove_edge (g : Graph) (s e : Node) (hwf : WF g) :
    ((∃ gerr, del_directed_edge g s e = .error gerr) ↔ ¬ edgeMem g s e) ∧
    (∀ gerr, del_directed_edge g s e = .error gerr → gerr = g) ∧
    (∀ g', del_directed_edge g s e = .ok g' →
      edgeMem g s e ∧ WF g' ∧
      (∀ a b, edgeMem g' a b ↔ (edgeMem g a b ∧ ¬(a = s ∧ b = e))) ∧
      (∀ a b, a ∈ lookupList g'.inedges b ↔
        (a ∈ lookupList g.inedges b ∧ ¬(a = s ∧ b = e))) ∧
      (∀ k l, lookupEM g'.outedges k = some l → l ≠ []) ∧
      (∀ k l, lookupEM g'.inedges k = some l → l ≠ [])) := by
  by_cases hmem : edgeMem g s e
  · obtain ⟨g2, heq, hwf2, hmo, hmi, -, -, -, -, -⟩ := del_spec hwf hmem
    refine ⟨?_, ?_, ?_⟩
    · constructor
      · rintro ⟨gerr, herr⟩
        rw [heq] at herr
        cases herr
      · intro hno
        exact absurd hmem hno
    · intro gerr herr
      rw [heq] at herr
      cases herr
    · intro g' hok
      rw [heq] at hok
      injection hok with h
      subst h
      exact ⟨hmem, hwf2, hmo, hmi, hwf2.ne_out, hwf2.ne_in⟩
  · have herr := del_directed_edge_not_mem hmem
    refine ⟨?_, ?_, ?_⟩
    · exact ⟨fun _ => hmem, fun _ => ⟨g, herr⟩⟩
    · intro gerr herr2
      rw [herr] at herr2
      injection herr2 with h
      exact h.symm
    · intro g' hok
      rw [herr] at hok
      cases hok

theorem C4_remove_edge_witness :
    WF (⟨[("A", ["B"])], [("B", ["A"])]⟩ : Graph) ∧
    ¬ edgeMem (⟨[("A", ["B"])], [("B", ["A"])]⟩ : Graph) "A" "C" ∧
    (∃ gerr, del_directed_edge ⟨[("A", ["B"])], [("B", ["A"])]⟩ "A" "C" =
      .error gerr) :=
  have hwf : WF (⟨[("A", ["B"])], [("B", ["A"])]⟩ : Graph) :=
    WF_of_WFcheck (by decide)
  ⟨hwf, by decide,
    (C4_remove_edge ⟨[("A", ["B"])], [("B", ["A"])]⟩ "A" "C" hwf).1.mpr (by decide)⟩

/-- C5: the isolated two-node cycle A→B, B→A reduces to the empty graph,
and the pure self-loop A→A reduces to the empty graph; the emitted output
is empty in both cases. -/
theorem C5_isolated_cycles :
    from_file [['A', '\t', 'B'], ['B', '\t', 'A']] =
      LoadResult.done ⟨[("A", ["B"]), ("B", ["A"])], [("B", ["A"]), ("A", ["B"])]⟩ ∧
    reduce_graph ⟨[("A", ["B"]), ("B", ["A"])], [("B", ["A"]), ("A", ["B"])]⟩ =
      RunRes.done ⟨[], []⟩ ∧
    from_file [['A', '\t', 'A']] =
      LoadResult.done ⟨[("A", ["A"])], [("A", ["A"])]⟩ ∧
    reduce_graph ⟨[("A", ["A"])], [("A", ["A"])]⟩ = RunRes.done ⟨[], []⟩ ∧
    to_file ⟨[], []⟩ = [] ∧
    main_run [['A', '\t', 'B'], ['B', '\t', 'A']] = some [] ∧
    main_run [['A', '\t', 'A']] = some [] := by
  decide

/-- C6: the worklist reduction terminates on every finite input graph: the
fuel bound `graphMeasure + 1` (queue length plus three times the edge
count) is never exhausted, for arbitrary — even ill-formed — states. -/
theorem C6_termination (g : Graph) : reduce_graph g ≠ RunRes.outOfFuel := by
  unfold reduce_graph
  exact reduceLoop_no_outOfFuel _ g (graphKeys g) (Nat.lt_succ_self _)

/-- C7: reduction is idempotent: reducing an already-reduced well-formed
graph changes nothing. -/
theorem C7_idempotent (g g' : Graph) (hwf : WF g)
    (hred : reduce_graph g = RunRes.done g') :
    reduce_graph g' = RunRes.done g' := by
  obtain ⟨g'', hrun, hwf'', hnopt⟩ := reduce_graph_spec hwf
  rw [hrun] at hred
  injection hred with h
  subst h
  unfold reduce_graph
  apply reduceLoop_noop _ _ _ hnopt
  unfold graphMeasure
  omega

theorem C7_idempotent_witness :
    WF (⟨[("A", ["B"])], [("B", ["A"])]⟩ : Graph) ∧
    reduce_graph ⟨[("A", ["B"])], [("B", ["A"])]⟩ =
      RunRes.done ⟨[("A", ["B"])], [("B", ["A"])]⟩ :=
  have hwf : WF (⟨[("A", ["B"])], [("B", ["A"])]⟩ : Graph) :=
    WF_of_WFcheck (by decide)
  ⟨hwf, C7_idempotent _ _ hwf (by decide)⟩

/-- C8: serialization followed by parsing is a round-trip: for a
well-formed graph whose node ids are valid `\w+` tokens, feeding any
reordering of the `to_file` lines back through `from_file` succeeds and
yields exactly the same edge set. -/
theorem C8_round_trip (g : Graph) (lines : List (List Char)) (hwf : WF g)
    (hvalid : ∀ a b, edgeMem g a b → validId a ∧ validId b)
    (hperm : lines.Perm (to_file g)) :
    ∃ g', from_file lines = LoadResult.done g' ∧
      ∀ a b, edgeMem g' a b ↔ edgeMem g a b := by
  have hline : ∀ line ∈ lines, ∃ a b,
      parseLine line = some (a, b) ∧ edgeMem g a b := by
    intro line hl
    have hmem : line ∈ to_file g := hperm.mem_iff.mp hl
    rw [to_file_eq_map, List.mem_map] at hmem
    obtain ⟨p, hp, hpe⟩ := hmem
    obtain ⟨x, y⟩ := p
    have hedge : edgeMem g x y := (mem_pairsOf hwf.keysND_out x y).mp hp
    obtain ⟨hvx, hvy⟩ := hvalid x y hedge
    subst hpe
    exact ⟨x, y, parseLine_round hvx hvy, hedge⟩
  have hval : ∀ line ∈ lines, parseLine line ≠ none := by
    intro l hl
    obtain ⟨a, b, hp, -⟩ := hline l hl
    rw [hp]
    simp
  obtain ⟨g', hrun, -, hmem⟩ := loadLoop_spec lines ⟨[], []⟩ WF_empty hval
  refine ⟨g', hrun, ?_⟩
  intro a b
  rw [hmem a b]
  constructor
  · rintro (h | ⟨l, hl, hpl⟩)
    · exact absurd h (by simp [edgeMem, lookupList, lookupEM])
    · obtain ⟨a', b', hp', hedge'⟩ := hline l hl
      rw [hp'] at hpl
      injection hpl with hpl2
      injection hpl2 with h1 h2
      subst h1
      subst h2
      exact hedge'
  · intro hedge
    right
    have hpair : (a, b) ∈ pairsOf g := (mem_pairsOf hwf.keysND_out a b).mpr hedge
    have hl : (a.data ++ '\t' :: b.data) ∈ to_file g := by
      rw [to_file_eq_map]
      exact List.mem_map_of_mem _ hpair
    obtain ⟨hva, hvb⟩ := hvalid a b hedge
    exact ⟨_, hperm.mem_iff.mpr hl, parseLine_round hva hvb⟩

theorem C8_round_trip_witness :
    WF (⟨[("A", ["B"])], [("B", ["A"])]⟩ : Graph) ∧
    ∃ g', from_file (to_file ⟨[("A", ["B"])], [("B", ["A"])]⟩) =
        LoadResult.done g' ∧
      ∀ a b, edgeMem g' a b ↔
        edgeMem (⟨[("A", ["B"])], [("B", ["A"])]⟩ : Graph) a b :=
  have hwf : WF (⟨[("A", ["B"])], [("B", ["A"])]⟩ : Graph) :=
    WF_of_WFcheck (by decide)
  have hv : ∀ a b, edgeMem (⟨[("A", ["B"])], [("B", ["A"])]⟩ : Graph) a b →
      validId a ∧ validId b := by
    intro a b h
    by_cases ha : a = "A"
    · subst ha
      have hcomp : lookupList [("A", ["B"])] "A" = ["B"] := by decide
      have h2 : b ∈ lookupList [("A", ["B"])] "A" := h
      rw [hcomp] at h2
      rw [List.mem_singleton.mp h2]
      exact ⟨by decide, by decide⟩
    · exfalso
      have hnone : lookupEM [("A", ["B"])] a = none := by
        simp only [lookupEM]
        rw [if_neg (fun hc => ha hc.symm)]
      have h2 : b ∈ lookupList [("A", ["B"])] a := h
      unfold lookupList at h2
      rw [hnone] at h2
      simp at h2
  ⟨hwf, C8_round_trip _ _ hwf hv (List.Perm.refl _)⟩

/-- C9: an input stream containing any line that does not match the
`\w+ TAB \w+` format makes the load phase fail with the `ValueError`
standing for InvalidLine, and the pipeline emits no output: no reduction
runs. -/
theorem C9_invalid_line (lines : List (List Char))
    (h : ∃ line ∈ lines, parseLine line = none) :
    from_file lines = LoadResult.invalidLine ∧ main_run lines = none := by
  have hinv : from_file lines = .invalidLine :=
    loadLoop_invalid lines ⟨[], []⟩ WF_empty h
  refine ⟨hinv, ?_⟩
  unfold main_run
  rw [hinv]

theorem C9_invalid_line_witness :
    (∃ line ∈ [['A', ' ', 'B']], parseLine line = none) ∧
    from_file [['A', ' ', 'B']] = LoadResult.invalidLine ∧
    main_run [['A', ' ', 'B']] = none :=
  ⟨by decide, C9_invalid_line [['A', ' ', 'B']] (by decide)⟩

/-- C10: whenever the graph satisfies mirror consistency (I1) and the
adjacency lists are duplicate-free (I2), the two internal `_add_edge`
insertions of `add_directed_edge` report the same already-existed flag, so
its `assert` never fails. -/
theorem C10_assert_never_fails (g : Graph) (s e : Node)
    (hm : ∀ a b, b ∈ lookupList g.outedges a ↔ a ∈ lookupList g.inedges b)
    (hndo : ∀ k, (lookupList g.outedges k).Nodup)
    (hndi : ∀ k, (lookupList g.inedges k).Nodup) :
    (addEdgeM g.outedges s e).1 = (addEdgeM g.inedges e s).1 ∧
    add_directed_edge g s e ≠ none := by
  refine ⟨add_flag_agree hm s e, ?_⟩
  rw [add_directed_edge_eq_some hm s e]
  simp

theorem C10_assert_never_fails_witness :
    (addEdgeM (⟨[], []⟩ : Graph).outedges "A" "B").1 =
      (addEdgeM (⟨[], []⟩ : Graph).inedges "B" "A").1 ∧
    add_directed_edge ⟨[], []⟩ "A" "B" ≠ none :=
  C10_assert_never_fails ⟨[], []⟩ "A" "B" WF_empty.mirror WF_empty.nd_out
    WF_empty.nd_in
